import Mathlib

/-!
Verification of the child_process worker/IPC layer described by spec.md
against src/childprocess.js.

The source file is a guide whose executable core is: spawning children with
options (cwd, env, shell, detached), the fork-based structured message
channel (parent.js / child.js), and the practical example in which an HTTP
server forks compute.js per /compute request, sends it a start message and
responds with the sum the worker sends back.

Definitions embedding code that is present in src/childprocess.js say so in
their doc comments; components that the spec describes but that have no code
under src (WorkerSession, WorkerRegistry, ChannelCodec, ProcessHandle
internals — the platform's fork/send machinery) are modelled from the spec
and marked `Modelled from the spec:`.
-/

namespace ChildProc

/-! ## Structured message payloads

The spec's payload model (§3 Message): an opaque tagged value tree, JSON-like,
as carried by the fork channel (`forked.send({ hello: 'world' })`,
`process.send({ counter: counter++ })`, `process.send(sum)`). -/

mutual

inductive JVal : Type where
  | null : JVal
  | bool (b : Bool) : JVal
  | num (n : Int) : JVal
  | str (s : String) : JVal
  | arr (xs : JList) : JVal
  | obj (fs : JFields) : JVal

inductive JList : Type where
  | nil : JList
  | cons (v : JVal) (vs : JList) : JList

inductive JFields : Type where
  | nil : JFields
  | cons (k : String) (v : JVal) (fs : JFields) : JFields

end

/-! ## compute.js (src/childprocess.js lines 362-373)

The worker's loop is `let sum = 0; for (let i = 0; i < 1e9; i++) sum += i;`
in JavaScript, where `+` is IEEE-754 binary64 addition. Every value the loop
handles is a nonnegative integer below 2^64 (each `i < 1e9 < 2^53` is exact,
and each partial sum is an integer-valued double), so the accumulation is
embedded exactly over Nat with an explicit 53-significant-bit
round-to-nearest, ties-to-even step after each addition. -/

/-- The exact mathematical sum of the integers `0 .. n - 1`: the value the
loop would produce in exact arithmetic. Below, `jsSumTo n = sumTo n` is
proved for every `n` whose partial sums stay under 2^53 (no rounding yet);
beyond that the double accumulation departs from `sumTo`. -/
def sumTo : Nat → Nat
  | 0 => 0
  | n + 1 => sumTo n + n

/-- Round a nonnegative integer at granularity `g` (a power of two) to the
nearest multiple of `g`, ties to the multiple with even quotient — the
binary64 rounding rule restricted to the integers this development uses. -/
def roundAt (g n : Nat) : Nat :=
  if 2 * (n % g) < g then n / g * g
  else if g < 2 * (n % g) then (n / g + 1) * g
  else if n / g % 2 = 0 then n / g * g
  else (n / g + 1) * g

/-- IEEE-754 binary64 value of a nonnegative integer: integers below 2^53
are exact; an integer `n ≥ 2^53` with `2^(52+e) ≤ n < 2^(53+e)` is rounded
to the nearest multiple of `2^e` (ties to even), where
`e = Nat.log 2 n - 52`. -/
def roundDouble (n : Nat) : Nat :=
  if n < 2 ^ 53 then n else roundAt (2 ^ (Nat.log 2 n - 52)) n

/-- JavaScript `+` on nonnegative integer-valued doubles: exact addition
followed by binary64 rounding. -/
def jsAdd (a b : Nat) : Nat := roundDouble (a + b)

/-- The loop state of compute.js's `let sum = 0; for (let i = 0; i < n; i++)
sum += i;` after all iterations, with each `sum += i` performed in double
arithmetic. -/
def jsSumTo : Nat → Nat
  | 0 => 0
  | n + 1 => jsAdd (jsSumTo n) n

/-- `const longComputation = () => { let sum = 0; for (let i = 0; i < 1e9; i++)
{ sum += i; }; return sum; }` — the loop bound in the source is `1e9` and the
accumulation is double-precision. -/
def longComputation : Nat := jsSumTo (10 ^ 9)

/-- compute.js message handler:
`process.on('message', (msg) => { const sum = longComputation(); process.send(sum); })`.
The reply payload sent for an incoming message `msg`; the handler never reads
`msg`. -/
def computeOnMessage (msg : JVal) : JVal := JVal.num (Int.ofNat longComputation)

/-- The task payload of spec scenario 1: `{op: "sum", to: 1000000}`. -/
def sumTaskMsg : JVal :=
  JVal.obj (JFields.cons "op" (JVal.str "sum")
    (JFields.cons "to" (JVal.num 1000000) JFields.nil))

/-! ## child.js (src/childprocess.js lines 302-310) -/

/-- child.js payload: `process.send({ counter: c })`. -/
def childMsg (c : Nat) : JVal :=
  JVal.obj (JFields.cons "counter" (JVal.num (Int.ofNat c)) JFields.nil)

/-- child.js: `let counter = 0; setInterval(() => { process.send({ counter:
counter++ }); }, 4000);` — each tick sends the current counter value and then
post-increments it. `childSends c n` is the list of payloads produced by `n`
ticks starting from counter value `c`. -/
def childSends : Nat → Nat → List JVal
  | _, 0 => []
  | c, n + 1 => childMsg c :: childSends (c + 1) n

/-! ## WorkerSession terminal-outcome state machine

Modelled from the spec: §4.3 `awaitResult` — a pending-result slot, unset then
set once, settled by the first `Result` message or by the process exit event,
whichever fires first; later events are ignored (anomalous, non-fatal). The
tutorial's /compute handler (src lines 379-389) registers only the message
listener; the exit path and the set-once slot are specified but have no code
under src. -/

inductive SessionEvent : Type where
  | result (v : JVal)
  | exited (code : Option Int) (signal : Option String)

inductive Outcome : Type where
  | success (v : JVal)
  | workerDied (code : Option Int) (signal : Option String)

/-- One step of the session's pending-result slot: the first event settles the
slot; once set, further events leave it unchanged. -/
def sessionStep (slot : Option Outcome) (ev : SessionEvent) : Option Outcome :=
  match slot, ev with
  | none, .result v => some (.success v)
  | none, .exited c s => some (.workerDied c s)
  | some o, _ => some o

/-- The slot after processing a whole event trace, starting unset. -/
def runSession (evs : List SessionEvent) : Option Outcome :=
  evs.foldl sessionStep none

/-- One step of the session tracking also the outcomes actually accepted
(delivered to the caller): an outcome is appended only on the unset-to-set
transition; duplicates are dropped. -/
def acceptedStep (p : Option Outcome × List Outcome) (ev : SessionEvent) :
    Option Outcome × List Outcome :=
  match p.1 with
  | none =>
    match sessionStep none ev with
    | some o => (some o, p.2 ++ [o])
    | none => (none, p.2)
  | some o => (some o, p.2)

/-- All outcomes delivered to the caller along a trace. -/
def acceptedOutcomes (evs : List SessionEvent) : List Outcome :=
  (evs.foldl acceptedStep (none, [])).2

/-! ## Helper lemmas -/

theorem sumTo_eq_finset_sum (n : Nat) :
    sumTo n = Finset.sum (Finset.range n) (fun i => i) := by
  induction n with
  | zero => simp [sumTo]
  | succ n ih => rw [Finset.sum_range_succ, sumTo, ih]

theorem two_mul_sumTo (n : Nat) : 2 * sumTo n = n * (n - 1) := by
  induction n with
  | zero => simp [sumTo]
  | succ n ih =>
    cases n with
    | zero => simp [sumTo]
    | succ m =>
      rw [sumTo, Nat.mul_add, ih]
      simp only [Nat.add_sub_cancel]
      ring

theorem sumTo_1000002 : sumTo 1000002 = 500001500001 := by
  have h := two_mul_sumTo 1000002
  norm_num at h
  omega

theorem roundDouble_of_lt (n : Nat) (h : n < 2 ^ 53) : roundDouble n = n := by
  unfold roundDouble
  rw [if_pos h]

theorem roundAt_cases (g n : Nat) :
    roundAt g n = n / g * g ∨ roundAt g n = (n / g + 1) * g := by
  unfold roundAt
  split
  · exact Or.inl rfl
  · split
    · exact Or.inr rfl
    · split
      · exact Or.inl rfl
      · exact Or.inr rfl

theorem div_mul_le_roundAt (g n : Nat) : n / g * g ≤ roundAt g n := by
  rcases roundAt_cases g n with h | h
  · rw [h]
  · rw [h]
    exact Nat.mul_le_mul_right g (Nat.le_succ _)

/-- Representability of a nonnegative integer as a binary64 double, in the
range this development uses: below 2^53 it is exact; at or above, it is a
multiple of its magnitude's granularity. -/
def Rep (x : Nat) : Prop := x < 2 ^ 53 ∨ x % 2 ^ (Nat.log 2 x - 52) = 0

theorem Rep_roundDouble (n : Nat) : Rep (roundDouble n) := by
  by_cases h : n < 2 ^ 53
  · rw [roundDouble_of_lt n h]
    exact Or.inl h
  · push_neg at h
    have hn0 : n ≠ 0 := by
      have hp : (0 : Nat) < 2 ^ 53 := pow_pos (by norm_num) 53
      omega
    set L := Nat.log 2 n with hLdef
    have h53 : 53 ≤ L := (Nat.pow_le_iff_le_log (by norm_num) hn0).1 h
    have hlow : 2 ^ L ≤ n := Nat.pow_log_le_self 2 hn0
    have hhigh : n < 2 ^ (L + 1) := Nat.lt_pow_succ_log_self (by norm_num) n
    have hgpos : 0 < 2 ^ (L - 52) := pow_pos (by norm_num) _
    have hrd : roundDouble n = roundAt (2 ^ (L - 52)) n := by
      unfold roundDouble
      rw [if_neg (not_lt.2 h)]
    have hq_low : 2 ^ 52 ≤ n / 2 ^ (L - 52) := by
      rw [Nat.le_div_iff_mul_le hgpos]
      calc (2 : Nat) ^ 52 * 2 ^ (L - 52) = 2 ^ L := by
            rw [← pow_add]
            congr 1
            omega
        _ ≤ n := hlow
    have hq_high : n / 2 ^ (L - 52) < 2 ^ 53 := by
      rw [Nat.div_lt_iff_lt_mul hgpos]
      calc n < 2 ^ (L + 1) := hhigh
        _ = 2 ^ 53 * 2 ^ (L - 52) := by
            rw [← pow_add]
            congr 1
            omega
    have h52L : (2 : Nat) ^ L = 2 ^ 52 * 2 ^ (L - 52) := by
      rw [← pow_add]
      congr 1
      omega
    have h53L : (2 : Nat) ^ (L + 1) = 2 ^ 53 * 2 ^ (L - 52) := by
      rw [← pow_add]
      congr 1
      omega
    have h53_le_L : (2 : Nat) ^ 53 ≤ 2 ^ L := Nat.pow_le_pow_right (by norm_num) h53
    rcases roundAt_cases (2 ^ (L - 52)) n with hz | hz
    · right
      rw [hrd, hz]
      have hzlo : 2 ^ L ≤ n / 2 ^ (L - 52) * 2 ^ (L - 52) := by
        rw [h52L]
        exact Nat.mul_le_mul_right _ hq_low
      have hzhi : n / 2 ^ (L - 52) * 2 ^ (L - 52) < 2 ^ (L + 1) :=
        lt_of_le_of_lt (Nat.div_mul_le_self n _) hhigh
      rw [Nat.log_eq_of_pow_le_of_lt_pow hzlo hzhi]
      exact Nat.mul_mod_left _ _
    · by_cases hq1 : n / 2 ^ (L - 52) + 1 < 2 ^ 53
      · right
        rw [hrd, hz]
        have hzlo : 2 ^ L ≤ (n / 2 ^ (L - 52) + 1) * 2 ^ (L - 52) := by
          rw [h52L]
          exact Nat.mul_le_mul_right _ (le_trans hq_low (Nat.le_succ _))
        have hzhi : (n / 2 ^ (L - 52) + 1) * 2 ^ (L - 52) < 2 ^ (L + 1) := by
          rw [h53L]
          exact (Nat.mul_lt_mul_right hgpos).2 hq1
        rw [Nat.log_eq_of_pow_le_of_lt_pow hzlo hzhi]
        exact Nat.mul_mod_left _ _
      · have hq1e : n / 2 ^ (L - 52) + 1 = 2 ^ 53 :=
          le_antisymm (Nat.succ_le_of_lt hq_high) (not_lt.1 hq1)
        right
        rw [hrd, hz, hq1e, ← pow_add, Nat.log_pow (by norm_num)]
        have hsplit : (2 : Nat) ^ (53 + (L - 52)) =
            2 ^ (53 + (L - 52) - 52) * 2 ^ 52 := by
          rw [← pow_add]
          congr 1
          omega
        rw [hsplit]
        exact Nat.mul_mod_right _ _

theorem le_roundDouble_of_Rep {x y : Nat} (hx : Rep x) (hxy : x ≤ y) :
    x ≤ roundDouble y := by
  by_cases hy : y < 2 ^ 53
  · rw [roundDouble_of_lt y hy]
    exact hxy
  · push_neg at hy
    have hy0 : y ≠ 0 := by
      have hp : (0 : Nat) < 2 ^ 53 := pow_pos (by norm_num) 53
      omega
    set L := Nat.log 2 y with hLdef
    have h53 : 53 ≤ L := (Nat.pow_le_iff_le_log (by norm_num) hy0).1 hy
    have hlow : 2 ^ L ≤ y := Nat.pow_log_le_self 2 hy0
    have hgpos : 0 < 2 ^ (L - 52) := pow_pos (by norm_num) _
    have hrd : roundDouble y = roundAt (2 ^ (L - 52)) y := by
      unfold roundDouble
      rw [if_neg (not_lt.2 hy)]
    have h52L : (2 : Nat) ^ L = 2 ^ 52 * 2 ^ (L - 52) := by
      rw [← pow_add]
      congr 1
      omega
    have hq_low : 2 ^ 52 ≤ y / 2 ^ (L - 52) := by
      rw [Nat.le_div_iff_mul_le hgpos]
      rw [← h52L]
      exact hlow
    have hbase : x ≤ y / 2 ^ (L - 52) * 2 ^ (L - 52) → x ≤ roundDouble y := by
      intro hxq
      rw [hrd]
      exact le_trans hxq (div_mul_le_roundAt _ _)
    by_cases hx2 : x ≤ 2 ^ L
    · apply hbase
      calc x ≤ 2 ^ L := hx2
        _ = 2 ^ 52 * 2 ^ (L - 52) := h52L
        _ ≤ y / 2 ^ (L - 52) * 2 ^ (L - 52) := Nat.mul_le_mul_right _ hq_low
    · push_neg at hx2
      have h53_le_L : (2 : Nat) ^ 53 ≤ 2 ^ L := Nat.pow_le_pow_right (by norm_num) h53
      have hx53 : ¬ x < 2 ^ 53 := by omega
      have hxm : x % 2 ^ (Nat.log 2 x - 52) = 0 := by
        rcases hx with hx | hx
        · exact absurd hx hx53
        · exact hx
      have hx0 : x ≠ 0 := by
        have hp : (0 : Nat) < 2 ^ L := pow_pos (by norm_num) L
        omega
      have hlogx_ge : L ≤ Nat.log 2 x :=
        (Nat.pow_le_iff_le_log (by norm_num) hx0).1 (le_of_lt hx2)
      have hlogx_le : Nat.log 2 x ≤ L := Nat.log_mono_right hxy
      have hlogx : Nat.log 2 x = L := le_antisymm hlogx_le hlogx_ge
      rw [hlogx] at hxm
      apply hbase
      have hdvd : 2 ^ (L - 52) ∣ x := Nat.dvd_of_mod_eq_zero hxm
      calc x = x / 2 ^ (L - 52) * 2 ^ (L - 52) := (Nat.div_mul_cancel hdvd).symm
        _ ≤ y / 2 ^ (L - 52) * 2 ^ (L - 52) :=
            Nat.mul_le_mul_right _ (Nat.div_le_div_right hxy)

theorem Rep_jsSumTo (n : Nat) : Rep (jsSumTo n) := by
  cases n with
  | zero =>
    rw [jsSumTo]
    exact Or.inl (pow_pos (by norm_num) 53)
  | succ n =>
    rw [jsSumTo, jsAdd]
    exact Rep_roundDouble _

theorem jsSumTo_le_succ (n : Nat) : jsSumTo n ≤ jsSumTo (n + 1) := by
  rw [jsSumTo, jsAdd]
  exact le_roundDouble_of_Rep (Rep_jsSumTo n) (Nat.le_add_right _ n)

theorem jsSumTo_mono {m n : Nat} (h : m ≤ n) : jsSumTo m ≤ jsSumTo n := by
  induction h with
  | refl => exact le_refl _
  | step h2 ih => exact le_trans ih (jsSumTo_le_succ _)

theorem jsSumTo_exact : ∀ n : Nat, sumTo n < 2 ^ 53 → jsSumTo n = sumTo n := by
  intro n
  induction n with
  | zero => intro _; rfl
  | succ n ih =>
    intro h
    rw [sumTo] at h
    have hn : sumTo n < 2 ^ 53 := lt_of_le_of_lt (Nat.le_add_right _ n) h
    rw [sumTo, jsSumTo, jsAdd, ih hn]
    exact roundDouble_of_lt _ h

/-- The double-precision loop value exceeds the exact sum of `0 .. 1000001`,
because the loop is monotone in its bound and exact below 2^53. -/
theorem longComputation_lower : 500001500001 ≤ longComputation := by
  have h1 : sumTo 1000002 < 2 ^ 53 := by
    rw [sumTo_1000002]
    norm_num
  have h2 : jsSumTo 1000002 = 500001500001 := by
    rw [jsSumTo_exact 1000002 h1, sumTo_1000002]
  have h3 : jsSumTo 1000002 ≤ jsSumTo (10 ^ 9) := jsSumTo_mono (by norm_num)
  unfold longComputation
  omega

theorem childSends_eq_map (c n : Nat) :
    childSends c n = (List.range n).map (fun i => childMsg (c + i)) := by
  induction n generalizing c with
  | zero => simp [childSends]
  | succ n ih =>
    rw [childSends, ih, List.range_succ_eq_map, List.map_cons, List.map_map]
    have hf : ((fun i => childMsg (c + i)) ∘ Nat.succ) =
        fun i => childMsg (c + 1 + i) := by
      funext i
      simp only [Function.comp_apply]
      congr 1
      omega
    rw [hf]
    simp

theorem runSession_frozen (o : Outcome) (evs : List SessionEvent) :
    evs.foldl sessionStep (some o) = some o := by
  induction evs with
  | nil => rfl
  | cons e rest ih => simp [List.foldl_cons, sessionStep, ih]

theorem acceptedStep_frozen (o : Outcome) (acc : List Outcome)
    (evs : List SessionEvent) :
    evs.foldl acceptedStep (some o, acc) = (some o, acc) := by
  induction evs with
  | nil => rfl
  | cons e rest ih => simp [List.foldl_cons, acceptedStep, ih]

/-- Every first event settles the slot: `sessionStep none` is always `some`. -/
theorem sessionStep_none_isSome (ev : SessionEvent) :
    (sessionStep none ev).isSome := by
  cases ev <;> simp [sessionStep]

/-! ## The fork message channel

Modelled from the spec: §4.1 `send` ordering and §5 (ordering guarantee for a
single ProcessHandle). src/childprocess.js only calls `forked.send` /
`process.send` and registers `on('message')` listeners (lines 295-310); the
queueing channel itself is the platform's. A child-side send appends to the
in-flight queue; an event-loop delivery hands the front of the queue to the
parent's `onMessage` listener. -/

inductive ChanAct : Type where
  | send (m : JVal)
  | deliver

structure ChanState : Type where
  queue : List JVal
  observed : List JVal
  sent : List JVal

def chanInit : ChanState := ⟨[], [], []⟩

def chanStep (st : ChanState) : ChanAct → ChanState
  | .send m => { st with queue := st.queue ++ [m], sent := st.sent ++ [m] }
  | .deliver =>
    match st.queue with
    | [] => st
    | m :: q => { st with queue := q, observed := st.observed ++ [m] }

def chanRunFrom (st : ChanState) (acts : List ChanAct) : ChanState :=
  acts.foldl chanStep st

def chanRun (acts : List ChanAct) : ChanState := chanRunFrom chanInit acts

theorem chanRunFrom_invariant (acts : List ChanAct) :
    ∀ st : ChanState, st.sent = st.observed ++ st.queue →
      (chanRunFrom st acts).sent =
        (chanRunFrom st acts).observed ++ (chanRunFrom st acts).queue := by
  induction acts with
  | nil => intro st h; exact h
  | cons a rest ih =>
    intro st h
    have hstep : (chanStep st a).sent =
        (chanStep st a).observed ++ (chanStep st a).queue := by
      cases a with
      | send m => simp [chanStep, h, List.append_assoc]
      | deliver =>
        cases hq : st.queue with
        | nil => simpa [chanStep, hq] using h
        | cons m q => simp [chanStep, hq, h, List.append_assoc]
    simpa [chanRunFrom, List.foldl_cons] using ih (chanStep st a) hstep

theorem chanRunFrom_sends (ms : List JVal) :
    ∀ st : ChanState, chanRunFrom st (ms.map ChanAct.send) =
      ⟨st.queue ++ ms, st.observed, st.sent ++ ms⟩ := by
  induction ms with
  | nil => intro st; simp [chanRunFrom]
  | cons m rest ih =>
    intro st
    simp only [List.map_cons, chanRunFrom, List.foldl_cons]
    have := ih (chanStep st (ChanAct.send m))
    simp only [chanRunFrom] at this
    rw [this]
    simp [chanStep, List.append_assoc]

theorem chanRunFrom_drain (q : List JVal) :
    ∀ obs sent : List JVal,
      chanRunFrom ⟨q, obs, sent⟩ (List.replicate q.length ChanAct.deliver) =
        ⟨[], obs ++ q, sent⟩ := by
  induction q with
  | nil => intro obs sent; simp [chanRunFrom]
  | cons m rest ih =>
    intro obs sent
    simp only [List.length_cons, List.replicate_succ, chanRunFrom,
      List.foldl_cons]
    have h1 : chanStep ⟨m :: rest, obs, sent⟩ ChanAct.deliver =
        ⟨rest, obs ++ [m], sent⟩ := by simp [chanStep]
    rw [h1]
    have := ih (obs ++ [m]) sent
    simp only [chanRunFrom] at this
    rw [this]
    simp

/-! ## WorkerRegistry

Modelled from the spec: §3 and §4.4 — a table of live sessions, an entry
inserted when the session (and its ProcessHandle) is created and erased once
when the session settles. No registry exists in src/childprocess.js (the
tutorial keeps one forked child per request in a local variable). -/

inductive RegEvent : Type where
  | create (sid : Nat)
  | settle (sid : Nat)

def regStep (reg : List Nat) : RegEvent → List Nat
  | .create sid => sid :: reg
  | .settle sid => reg.erase sid

def regRun (evs : List RegEvent) : List Nat := evs.foldl regStep []

theorem regRun_creates (sids : List Nat) :
    ∀ reg : List Nat, (sids.map RegEvent.create).foldl regStep reg =
      sids.reverse ++ reg := by
  induction sids with
  | nil => intro reg; simp
  | cons s rest ih =>
    intro reg
    simp only [List.map_cons, List.foldl_cons, regStep]
    rw [ih (s :: reg)]
    simp

theorem regRun_settles (order : List Nat) :
    ∀ reg : List Nat, (order.map RegEvent.settle).foldl regStep reg =
      order.foldl List.erase reg := by
  induction order with
  | nil => intro reg; simp
  | cons s rest ih =>
    intro reg
    simp only [List.map_cons, List.foldl_cons, regStep]
    exact ih (reg.erase s)

theorem foldl_erase_perm (order : List Nat) :
    ∀ reg : List Nat, order.Perm reg → order.foldl List.erase reg = [] := by
  induction order with
  | nil =>
    intro reg h
    simpa using h.symm.eq_nil
  | cons s rest ih =>
    intro reg h
    have hs : s ∈ reg := h.mem_iff.1 (List.mem_cons_self s rest)
    have hp : reg.Perm (s :: reg.erase s) := List.perm_cons_erase hs
    have hrest : rest.Perm (reg.erase s) := (h.trans hp).cons_inv
    simpa [List.foldl_cons] using ih (reg.erase s) hrest

/-! ## Message routing across concurrent sessions

Modelled from the spec (§4.4, §5) and the shape of the src handler (lines
379-389): each /compute request forks its own child and registers a `message`
listener closing over its own response object, so an inbound message —
tagged with the handle it arrived on — can only resolve the session that owns
that handle. -/

structure Session : Type where
  sid : Nat
  hid : Nat
  slot : Option JVal

structure Inbound : Type where
  hid : Nat
  value : JVal

/-- Delivery of one inbound message to one session: it sets the session's
pending slot only if the session owns the source handle and is unresolved. -/
def deliverMsg (m : Inbound) (s : Session) : Session :=
  match s.slot with
  | none => if s.hid = m.hid then { s with slot := some m.value } else s
  | some _ => s

def routeAll (ss : List Session) (msgs : List Inbound) : List Session :=
  msgs.foldl (fun cur m => cur.map (deliverMsg m)) ss

theorem deliverMsg_hid (m : Inbound) (s : Session) :
    (deliverMsg m s).hid = s.hid := by
  unfold deliverMsg
  cases s.slot
  · by_cases h : s.hid = m.hid <;> simp [h]
  · rfl

theorem routeAll_slot_source (msgs : List Inbound) :
    ∀ (ss : List Session) (t : Session), t ∈ routeAll ss msgs →
      ∀ v : JVal, t.slot = some v →
        (∃ s ∈ ss, s.hid = t.hid ∧ s.slot = some v) ∨
        ∃ m ∈ msgs, m.hid = t.hid ∧ m.value = v := by
  induction msgs with
  | nil =>
    intro ss t ht v hv
    left
    exact ⟨t, by simpa [routeAll] using ht, rfl, hv⟩
  | cons m rest ih =>
    intro ss t ht v hv
    have ht' : t ∈ routeAll (ss.map (deliverMsg m)) rest := by
      simpa [routeAll, List.foldl_cons] using ht
    rcases ih (ss.map (deliverMsg m)) t ht' v hv with
      ⟨s, hsmem, hhid, hslot⟩ | ⟨m', hm, hh, hval⟩
    · rcases List.mem_map.1 hsmem with ⟨s0, hs0, rfl⟩
      have hidd : (deliverMsg m s0).hid = s0.hid := deliverMsg_hid m s0
      cases hss : s0.slot with
      | some w =>
        left
        refine ⟨s0, hs0, ?_, ?_⟩
        · rw [← hhid, hidd]
        · rw [← hslot]
          simp [deliverMsg, hss]
      | none =>
        by_cases hh0 : s0.hid = m.hid
        · right
          refine ⟨m, List.mem_cons_self m rest, ?_, ?_⟩
          · rw [← hhid, hidd, hh0]
          · have : (deliverMsg m s0).slot = some m.value := by
              simp [deliverMsg, hss, hh0]
            rw [this] at hslot
            exact Option.some_inj.1 hslot
        · left
          refine ⟨s0, hs0, by rw [← hhid, hidd], ?_⟩
          rw [← hslot]
          simp [deliverMsg, hss, hh0]
    · right
      exact ⟨m', List.mem_cons_of_mem _ hm, hh, hval⟩

/-! ## ProcessHandle lifecycle and send

Modelled from the spec: §3 (lifecycle state) and §4.1 `send` / §7
`ChannelClosedError`. src/childprocess.js only calls `forked.send` (line 299);
the channel teardown behaviour is the platform's. -/

inductive HandleState : Type where
  | spawning
  | running
  | exited (code : Option Int) (signal : Option String)
  | failed

inductive SendError : Type where
  | channelClosed

/-- The IPC channel is open only while the process has neither exited nor
failed (nor been torn down). -/
def channelOpen : HandleState → Bool
  | .spawning => true
  | .running => true
  | .exited _ _ => false
  | .failed => false

/-- `send(message)` on a ProcessHandle: enqueues when the channel is open,
otherwise fails with `ChannelClosedError` (it never blocks). -/
def sendMessage (st : HandleState) (m : JVal) : Except SendError Unit :=
  if channelOpen st then Except.ok () else Except.error SendError.channelClosed

/-! ## Spawn options and the child environment

src/childprocess.js lines 201-216: the `env` option; its semantics (default
`process.env`, otherwise the given mapping is the only environment) is stated
in the source's own commentary, the implementation being the platform's
spawn. Modelled from the spec accordingly. -/

structure SpawnOptions : Type where
  cwd : Option String := none
  env : Option (List (String × String)) := none
  shell : Bool := false
  detached : Bool := false

/-- The environment the child sees: the caller's environment when no `env`
option is passed, else exactly the given mapping. -/
def childEnv (parentEnv : List (String × String)) (opts : SpawnOptions) :
    List (String × String) :=
  match opts.env with
  | none => parentEnv
  | some e => e

def lookupVar (e : List (String × String)) (k : String) : Option String :=
  (e.find? (fun p => p.1 == k)).map (fun p => p.2)

/-- A concrete caller environment for the `echo $ANSWER` example (src lines
208-216): the parent has `HOME` but no `ANSWER`. -/
def demoParentEnv : List (String × String) :=
  [("HOME", "/home/user"), ("PATH", "/usr/bin")]

/-! ## ChannelCodec pass-through form

Modelled from the spec: §4.2 — on a platform whose IPC is natively
structured (Node's fork channel, the one the source uses), the codec
degenerates to the identity pass-through. -/

def passEncode (m : JVal) : JVal := m

def passDecode (m : JVal) : JVal := m

/-! ## ChannelCodec framing form

Modelled from the spec: §4.2 — when the transport is a plain byte/record
stream, the codec must frame messages so that several logical messages on one
stream are recovered without truncation or merging; here a length-prefixed
record scheme over the tagged value tree. -/

def jlen : JList → Nat
  | .nil => 0
  | .cons _ vs => jlen vs + 1

def flen : JFields → Nat
  | .nil => 0
  | .cons _ _ fs => flen fs + 1

/-- The flat record alphabet the codec writes: atom records, and
length-prefixed headers for arrays and objects. -/
inductive Tok : Type where
  | tnull
  | tbool (b : Bool)
  | tnum (n : Int)
  | tstr (s : String)
  | tarr (len : Nat)
  | tobj (len : Nat)
  | tkey (k : String)

mutual

def encodeV : JVal → List Tok
  | .null => [.tnull]
  | .bool b => [.tbool b]
  | .num n => [.tnum n]
  | .str s => [.tstr s]
  | .arr xs => .tarr (jlen xs) :: encodeL xs
  | .obj fs => .tobj (flen fs) :: encodeF fs

def encodeL : JList → List Tok
  | .nil => []
  | .cons v vs => encodeV v ++ encodeL vs

def encodeF : JFields → List Tok
  | .nil => []
  | .cons k v fs => .tkey k :: (encodeV v ++ encodeF fs)

end

mutual

def decodeV : Nat → List Tok → Option (JVal × List Tok)
  | 0, _ => none
  | _ + 1, [] => none
  | _ + 1, .tnull :: ts => some (.null, ts)
  | _ + 1, .tbool b :: ts => some (.bool b, ts)
  | _ + 1, .tnum n :: ts => some (.num n, ts)
  | _ + 1, .tstr s :: ts => some (.str s, ts)
  | f + 1, .tarr n :: ts =>
    match decodeL f n ts with
    | some (xs, r) => some (.arr xs, r)
    | none => none
  | f + 1, .tobj n :: ts =>
    match decodeF f n ts with
    | some (fs, r) => some (.obj fs, r)
    | none => none
  | _ + 1, .tkey _ :: _ => none

def decodeL : Nat → Nat → List Tok → Option (JList × List Tok)
  | _, 0, ts => some (.nil, ts)
  | 0, _ + 1, _ => none
  | f + 1, n + 1, ts =>
    match decodeV f ts with
    | some (v, r) =>
      match decodeL f n r with
      | some (vs, r2) => some (.cons v vs, r2)
      | none => none
    | none => none

def decodeF : Nat → Nat → List Tok → Option (JFields × List Tok)
  | _, 0, ts => some (.nil, ts)
  | 0, _ + 1, _ => none
  | f + 1, n + 1, .tkey k :: ts =>
    match decodeV f ts with
    | some (v, r) =>
      match decodeF f n r with
      | some (fs, r2) => some (.cons k v fs, r2)
      | none => none
    | none => none
  | _ + 1, _ + 1, _ => none

end

mutual

def sizeV : JVal → Nat
  | .null => 1
  | .bool _ => 1
  | .num _ => 1
  | .str _ => 1
  | .arr xs => sizeL xs + 1
  | .obj fs => sizeF fs + 1

def sizeL : JList → Nat
  | .nil => 0
  | .cons v vs => max (sizeV v) (sizeL vs) + 1

def sizeF : JFields → Nat
  | .nil => 0
  | .cons _ v fs => max (sizeV v) (sizeF fs) + 1

end

theorem one_le_sizeV (v : JVal) : 1 ≤ sizeV v := by
  cases v <;> simp [sizeV]

theorem one_le_encodeV_length (v : JVal) : 1 ≤ (encodeV v).length := by
  cases v <;> simp [encodeV]

mutual

theorem decodeV_enc : ∀ (v : JVal) (rest : List Tok) (f : Nat),
    sizeV v ≤ f → decodeV f (encodeV v ++ rest) = some (v, rest)
  | v, _, 0, h => absurd (Nat.le_trans (one_le_sizeV v) h) (by simp)
  | .null, rest, f + 1, _ => by simp [encodeV, decodeV]
  | .bool b, rest, f + 1, _ => by simp [encodeV, decodeV]
  | .num n, rest, f + 1, _ => by simp [encodeV, decodeV]
  | .str s, rest, f + 1, _ => by simp [encodeV, decodeV]
  | .arr xs, rest, f + 1, h => by
    have hxs : sizeL xs ≤ f := by
      have h1 : sizeL xs + 1 ≤ f + 1 := by simpa [sizeV] using h
      omega
    simp only [encodeV, List.cons_append, decodeV]
    rw [decodeL_enc xs rest f hxs]
  | .obj fs, rest, f + 1, h => by
    have hfs : sizeF fs ≤ f := by
      have h1 : sizeF fs + 1 ≤ f + 1 := by simpa [sizeV] using h
      omega
    simp only [encodeV, List.cons_append, decodeV]
    rw [decodeF_enc fs rest f hfs]

theorem decodeL_enc : ∀ (xs : JList) (rest : List Tok) (f : Nat),
    sizeL xs ≤ f → decodeL f (jlen xs) (encodeL xs ++ rest) = some (xs, rest)
  | .nil, rest, f, _ => by simp [jlen, encodeL, decodeL]
  | .cons v vs, _, 0, h => absurd h (by simp [sizeL])
  | .cons v vs, rest, f + 1, h => by
    have hm : max (sizeV v) (sizeL vs) ≤ f := by
      have h1 : max (sizeV v) (sizeL vs) + 1 ≤ f + 1 := by
        simpa [sizeL] using h
      omega
    have hv : sizeV v ≤ f := Nat.le_trans (Nat.le_max_left _ _) hm
    have hvs : sizeL vs ≤ f := Nat.le_trans (Nat.le_max_right _ _) hm
    simp only [jlen, encodeL, List.append_assoc, decodeL]
    simp [decodeV_enc v (encodeL vs ++ rest) f hv,
      decodeL_enc vs rest f hvs]

theorem decodeF_enc : ∀ (fs : JFields) (rest : List Tok) (f : Nat),
    sizeF fs ≤ f → decodeF f (flen fs) (encodeF fs ++ rest) = some (fs, rest)
  | .nil, rest, f, _ => by simp [flen, encodeF, decodeF]
  | .cons k v fs, _, 0, h => absurd h (by simp [sizeF])
  | .cons k v fs, rest, f + 1, h => by
    have hm : max (sizeV v) (sizeF fs) ≤ f := by
      have h1 : max (sizeV v) (sizeF fs) + 1 ≤ f + 1 := by
        simpa [sizeF] using h
      omega
    have hv : sizeV v ≤ f := Nat.le_trans (Nat.le_max_left _ _) hm
    have hfs : sizeF fs ≤ f := Nat.le_trans (Nat.le_max_right _ _) hm
    simp only [flen, encodeF, List.cons_append, List.append_assoc, decodeF]
    simp [decodeV_enc v (encodeF fs ++ rest) f hv,
      decodeF_enc fs rest f hfs]

end

mutual

theorem sizeV_le_encode : ∀ v : JVal, sizeV v ≤ 2 * (encodeV v).length
  | .null => by simp [sizeV, encodeV]
  | .bool b => by simp [sizeV, encodeV]
  | .num n => by simp [sizeV, encodeV]
  | .str s => by simp [sizeV, encodeV]
  | .arr xs => by
    have h := sizeL_le_encode xs
    simp only [sizeV, encodeV, List.length_cons]
    omega
  | .obj fs => by
    have h := sizeF_le_encode fs
    simp only [sizeV, encodeV, List.length_cons]
    omega

theorem sizeL_le_encode : ∀ xs : JList, sizeL xs ≤ 2 * (encodeL xs).length + 1
  | .nil => by simp [sizeL, encodeL]
  | .cons v vs => by
    have hv := sizeV_le_encode v
    have hvs := sizeL_le_encode vs
    have hpos := one_le_encodeV_length v
    have hmax : max (sizeV v) (sizeL vs) ≤
        2 * (encodeV v).length + 2 * (encodeL vs).length :=
      Nat.max_le.2 ⟨by omega, by omega⟩
    simp only [sizeL, encodeL, List.length_append]
    omega

theorem sizeF_le_encode : ∀ fs : JFields, sizeF fs ≤ 2 * (encodeF fs).length + 1
  | .nil => by simp [sizeF, encodeF]
  | .cons k v fs => by
    have hv := sizeV_le_encode v
    have hfs := sizeF_le_encode fs
    have hpos := one_le_encodeV_length v
    have hmax : max (sizeV v) (sizeF fs) ≤
        2 * (encodeV v).length + 2 * (encodeF fs).length :=
      Nat.max_le.2 ⟨by omega, by omega⟩
    simp only [sizeF, encodeF, List.length_cons, List.length_append]
    omega

end

/-- ChannelCodec.decode for a whole record stream holding one message: the
fuel bound is derived from the stream length, which dominates the recursion
depth of any well-formed frame. -/
def decode (ts : List Tok) : Option JVal :=
  match decodeV (2 * ts.length) ts with
  | some (v, []) => some v
  | _ => none

theorem decode_encodeV (v : JVal) : decode (encodeV v) = some v := by
  have h : sizeV v ≤ 2 * (encodeV v).length := sizeV_le_encode v
  have hd := decodeV_enc v [] (2 * (encodeV v).length) h
  simp only [List.append_nil] at hd
  simp [decode, hd]

/-! ## Claim theorems -/

/-- C1: For every successfully spawned session, exactly one terminal outcome
is delivered to the caller: once a terminal event (a Result message or the
process exit) occurs, the pending slot is settled exactly once — never zero
outcomes, never a second accepted outcome — and in particular a worker that
exits with code 1 before any result settles the session with
WorkerDiedError carrying code 1 and no signal. -/
theorem C1_exactly_one_outcome :
    (∀ evs : List SessionEvent, evs ≠ [] →
      (runSession evs).isSome ∧ (acceptedOutcomes evs).length = 1) ∧
    runSession [SessionEvent.exited (some 1) none] =
      some (Outcome.workerDied (some 1) none) := by
  constructor
  · intro evs hne
    cases evs with
    | nil => exact absurd rfl hne
    | cons e rest =>
      have hsome := sessionStep_none_isSome e
      rcases Option.isSome_iff_exists.1 hsome with ⟨o, ho⟩
      constructor
      · unfold runSession
        rw [List.foldl_cons, ho, runSession_frozen]
        rfl
      · unfold acceptedOutcomes
        rw [List.foldl_cons]
        have hstep : acceptedStep (none, []) e = (some o, [o]) := by
          simp [acceptedStep, ho]
        rw [hstep, acceptedStep_frozen]
        rfl
  · rfl

theorem C1_exactly_one_outcome_witness :
    ([SessionEvent.exited (some 1) none] ≠ ([] : List SessionEvent)) ∧
    ((runSession [SessionEvent.exited (some 1) none]).isSome ∧
      (acceptedOutcomes [SessionEvent.exited (some 1) none]).length = 1) :=
  ⟨by simp,
    C1_exactly_one_outcome.1 [SessionEvent.exited (some 1) none] (by simp)⟩

/-- C2 counterexample: the compute.js worker ignores its task payload
entirely; on the scenario-1 task message it replies with the fixed
double-precision loop value longComputation, which exceeds 500001500001 and
so is not 500000500000. -/
theorem C2_counterexample :
    computeOnMessage sumTaskMsg ≠ JVal.num 500000500000 := by
  intro hcontra
  simp only [computeOnMessage] at hcontra
  have h1 : Int.ofNat longComputation = Int.ofNat 500000500000 := by
    injection hcontra
  have h2 : longComputation = 500000500000 := Int.ofNat.inj h1
  have h4 := longComputation_lower
  omega

/-- C2 (amended): submitting a worker with task payload op sum / to 1000000
does not resolve to 500000500000: the compute.js handler ignores the payload
carried by the Start message and always sends the one fixed value
longComputation — the double-precision accumulation of i for 0 ≤ i < 10^9,
which is at least 500001500001 — and the caller's future resolves to that
fixed value. -/
theorem C2_amended_fixed_sum :
    (∀ m : JVal, computeOnMessage m = JVal.num (Int.ofNat longComputation)) ∧
    500000500000 < longComputation ∧
    runSession [SessionEvent.result (computeOnMessage sumTaskMsg)] =
      some (Outcome.success (JVal.num (Int.ofNat longComputation))) := by
  refine ⟨fun m => rfl, ?_, rfl⟩
  have h := longComputation_lower
  omega

/-- C3: For a single ProcessHandle, inbound messages reach the parent's
onMessage listener in exactly the order the child sent them: along any
interleaving of sends and deliveries the observed list is a prefix of the
sent list (no reordering, no drops), and once the in-flight queue is drained
the observed list equals the sent list; in particular sending N messages and
delivering them all observes them in order 1..N. -/
theorem C3_message_ordering :
    (∀ acts : List ChanAct,
      (chanRun acts).sent = (chanRun acts).observed ++ (chanRun acts).queue) ∧
    (∀ acts : List ChanAct, (chanRun acts).queue = [] →
      (chanRun acts).observed = (chanRun acts).sent) ∧
    (∀ ms : List JVal,
      (chanRun (ms.map ChanAct.send ++
        List.replicate ms.length ChanAct.deliver)).observed = ms) := by
  have hinv : ∀ acts : List ChanAct,
      (chanRun acts).sent = (chanRun acts).observed ++ (chanRun acts).queue :=
    fun acts => chanRunFrom_invariant acts chanInit (by rfl)
  refine ⟨hinv, ?_, ?_⟩
  · intro acts hq
    have h := hinv acts
    rw [hq, List.append_nil] at h
    exact h.symm
  · intro ms
    unfold chanRun chanRunFrom
    rw [List.foldl_append]
    have h1 : (ms.map ChanAct.send).foldl chanStep chanInit =
        ⟨ms, [], ms⟩ := by
      have h := chanRunFrom_sends ms chanInit
      simpa [chanRunFrom, chanInit] using h
    rw [h1]
    have h2 := chanRunFrom_drain ms [] ms
    simp only [chanRunFrom] at h2
    rw [h2]
    simp

theorem C3_message_ordering_witness :
    ((chanRun [ChanAct.send (JVal.num 1), ChanAct.deliver]).queue = []) ∧
    (chanRun [ChanAct.send (JVal.num 1), ChanAct.deliver]).observed =
      (chanRun [ChanAct.send (JVal.num 1), ChanAct.deliver]).sent :=
  ⟨rfl,
    C3_message_ordering.2.1 [ChanAct.send (JVal.num 1), ChanAct.deliver] rfl⟩

/-- C4: Concurrent sessions never swap results: a session resolved by the
routing path only ever holds a value that arrived on its own worker's
handle, and for two concurrent sessions on distinct handles, whichever order
the two workers' results arrive in, each session resolves with its own
worker's value. -/
theorem C4_no_cross_talk :
    (∀ (ss : List Session) (msgs : List Inbound) (t : Session),
      t ∈ routeAll ss msgs → ∀ v : JVal, t.slot = some v →
        (∃ s ∈ ss, s.hid = t.hid ∧ s.slot = some v) ∨
        ∃ m ∈ msgs, m.hid = t.hid ∧ m.value = v) ∧
    (∀ (h1 h2 : Nat) (v1 v2 : JVal), h1 ≠ h2 →
      routeAll [⟨1, h1, none⟩, ⟨2, h2, none⟩] [⟨h1, v1⟩, ⟨h2, v2⟩] =
        [⟨1, h1, some v1⟩, ⟨2, h2, some v2⟩] ∧
      routeAll [⟨1, h1, none⟩, ⟨2, h2, none⟩] [⟨h2, v2⟩, ⟨h1, v1⟩] =
        [⟨1, h1, some v1⟩, ⟨2, h2, some v2⟩]) := by
  constructor
  · intro ss msgs t ht v hv
    exact routeAll_slot_source msgs ss t ht v hv
  · intro h1 h2 v1 v2 hne
    constructor
    · simp [routeAll, deliverMsg, hne, Ne.symm hne]
    · simp [routeAll, deliverMsg, hne, Ne.symm hne]

theorem C4_no_cross_talk_witness :
    ((10 : Nat) ≠ 20) ∧
    (routeAll [⟨1, 10, none⟩, ⟨2, 20, none⟩]
        [⟨10, JVal.num 1⟩, ⟨20, JVal.num 2⟩] =
      [⟨1, 10, some (JVal.num 1)⟩, ⟨2, 20, some (JVal.num 2)⟩] ∧
    routeAll [⟨1, 10, none⟩, ⟨2, 20, none⟩]
        [⟨20, JVal.num 2⟩, ⟨10, JVal.num 1⟩] =
      [⟨1, 10, some (JVal.num 1)⟩, ⟨2, 20, some (JVal.num 2)⟩]) :=
  ⟨by decide, C4_no_cross_talk.2 10 20 (JVal.num 1) (JVal.num 2) (by decide)⟩

/-- C5: The ChannelCodec round-trips every representable structured message:
decoding the length-prefixed framing of any payload tree recovers it
exactly, and on a platform with native structured inter-process messaging
(the fork channel the source uses) the codec is the identity pass-through. -/
theorem C5_codec_roundtrip :
    (∀ m : JVal, decode (encodeV m) = some m) ∧
    (∀ m : JVal, passDecode (passEncode m) = m ∧ passEncode m = m) :=
  ⟨decode_encodeV, fun m => ⟨rfl, rfl⟩⟩

/-- C6: After N concurrent sessions are created and all of them settle (in
any order), the WorkerRegistry is empty; a settle for an id that is no
longer registered removes nothing (each entry is removed exactly once). -/
theorem C6_registry_drains :
    ∀ (sids order : List Nat), order.Perm sids →
      regRun (sids.map RegEvent.create ++ order.map RegEvent.settle) = [] ∧
      (∀ (reg : List Nat) (sid : Nat), sid ∉ reg →
        regStep reg (RegEvent.settle sid) = reg) := by
  intro sids order hperm
  constructor
  · unfold regRun
    rw [List.foldl_append, regRun_creates sids [], regRun_settles order]
    apply foldl_erase_perm
    have h := hperm.trans (List.reverse_perm sids).symm
    simpa using h
  · intro reg sid h
    simp [regStep, List.erase_of_not_mem h]

theorem C6_registry_drains_witness :
    (List.Perm [2, 3, 1] [1, 2, 3]) ∧
    (regRun ([1, 2, 3].map RegEvent.create ++
        [2, 3, 1].map RegEvent.settle) = [] ∧
      (∀ (reg : List Nat) (sid : Nat), sid ∉ reg →
        regStep reg (RegEvent.settle sid) = reg)) :=
  ⟨by decide, C6_registry_drains [1, 2, 3] [2, 3, 1] (by decide)⟩

/-- C7: Calling send on a ProcessHandle whose channel is already closed —
the child exited (with any code or signal) or the handle failed / was torn
down — returns ChannelClosedError immediately rather than hanging or
silently succeeding. -/
theorem C7_send_after_close :
    (∀ (code : Option Int) (sig : Option String) (m : JVal),
      sendMessage (HandleState.exited code sig) m =
        Except.error SendError.channelClosed) ∧
    (∀ m : JVal, sendMessage HandleState.failed m =
      Except.error SendError.channelClosed) :=
  ⟨fun _ _ _ => rfl, fun _ => rfl⟩

/-- C8: With no env option the child sees the caller's environment; with an
env mapping the child sees exactly that mapping and nothing else — the
`echo $ANSWER` child spawned with env ANSWER=23 can read ANSWER but not the
parent's HOME, which the parent itself does have. -/
theorem C8_child_environment :
    (∀ p : List (String × String), childEnv p {} = p) ∧
    (∀ (p e : List (String × String)), childEnv p { env := some e } = e) ∧
    childEnv demoParentEnv
        { env := some [("ANSWER", "23")], shell := true } =
      [("ANSWER", "23")] ∧
    lookupVar (childEnv demoParentEnv
        { env := some [("ANSWER", "23")], shell := true }) "ANSWER" =
      some "23" ∧
    lookupVar (childEnv demoParentEnv
        { env := some [("ANSWER", "23")], shell := true }) "HOME" = none ∧
    lookupVar demoParentEnv "HOME" = some "/home/user" :=
  ⟨fun _ => rfl, fun _ _ => rfl, rfl, rfl, rfl, rfl⟩

/-- C9: The compute.js worker replies with the same value for every message
it receives: the handler ignores the incoming message entirely, and the
value sent is longComputation — the double-precision accumulation of the
integers i for 0 ≤ i < 10^9, which coincides with the exact sum sumTo n
exactly as long as the partial sums stay below 2^53 (sumTo itself being the
mathematical sum over the range). -/
theorem C9_compute_ignores_payload :
    (∀ m1 m2 : JVal, computeOnMessage m1 = computeOnMessage m2) ∧
    (∀ m : JVal, computeOnMessage m = JVal.num (Int.ofNat (jsSumTo (10 ^ 9)))) ∧
    (∀ n : Nat, sumTo n < 2 ^ 53 → jsSumTo n = sumTo n) ∧
    (∀ n : Nat, sumTo n = Finset.sum (Finset.range n) (fun i => i)) :=
  ⟨fun _ _ => rfl, fun _ => rfl, jsSumTo_exact, sumTo_eq_finset_sum⟩

theorem C9_compute_ignores_payload_witness :
    sumTo 4 < 2 ^ 53 ∧ jsSumTo 4 = sumTo 4 :=
  ⟨by decide, C9_compute_ignores_payload.2.2.1 4 (by decide)⟩

/-- C10: The child.js counter messages carry strictly increasing consecutive
values starting at 0: the sequence of payloads of n ticks is exactly the
counter objects for 0 .. n-1, so the k-th sent message (k ≥ 1) carries
counter k - 1. -/
theorem C10_child_counter_sequence :
    (∀ n : Nat, childSends 0 n = (List.range n).map childMsg) ∧
    (∀ n k : Nat, 1 ≤ k → k ≤ n →
      (childSends 0 n)[k - 1]? = some (childMsg (k - 1))) := by
  have hmap : ∀ n : Nat, childSends 0 n = (List.range n).map childMsg := by
    intro n
    rw [childSends_eq_map 0 n]
    simp
  refine ⟨hmap, ?_⟩
  intro n k hk1 hkn
  rw [hmap n, List.getElem?_map]
  have hlt : k - 1 < n := by omega
  rw [List.getElem?_range hlt]
  rfl

theorem C10_child_counter_sequence_witness :
    ((1 : Nat) ≤ 2 ∧ (2 : Nat) ≤ 3) ∧
    (childSends 0 3)[2 - 1]? = some (childMsg (2 - 1)) :=
  ⟨⟨by decide, by decide⟩,
    C10_child_counter_sequence.2 3 2 (by decide) (by decide)⟩

end ChildProc
